import Mathlib

/-!
# AutoRec — verification of the signal-processing and matching pipeline

Shallow embedding of the core of the `autorec` repository (Rust) in Lean 4.

Conventions used throughout:
* Rust `f32`/`f64` values (dB levels, durations, scores) are modelled as exact
  rationals `ℚ`; the arithmetic performed on them mirrors the source expressions.
* Rust `usize`/`u32`/`u64` are modelled as `ℕ`, with explicit `% 2^64` where the
  source relies on wrapping arithmetic (the FNV-1a hash).
* Rust `String`/`&str` values are modelled as `List Char`; `str::contains` is
  substring containment, `split_whitespace` splits on whitespace characters.
* Fallible or panicking code paths return `Option`: `none` models a panic
  (out-of-bounds index / arithmetic underflow).
* Wall-clock time (sleeps, `Instant`) is not modelled; operations that only
  touch timing state are identities on the modelled state.
-/

namespace Autorec

/-! ## rate_limiter.rs — `RateLimiter`

State of `RateLimiter` (src/rate_limiter.rs).  Intervals are in milliseconds
(`Duration` modelled as `ℕ` ms).  The `last_request : Option<Instant>` field is
wall-clock time and is not part of the modelled state; `wait_if_needed` only
sleeps and records the current time, so it is the identity here. -/

structure RateLimiter where
  name : String
  currentInterval : ℕ
  baseInterval : ℕ
  maxInterval : ℕ
  successCount : ℕ
  successesToReduce : ℕ
  deriving DecidableEq, Repr

/-- `RateLimiter::new` (src/rate_limiter.rs:29). -/
def RateLimiter.new (name : String) (base maxI succ : ℕ) : RateLimiter :=
  { name := name
    currentInterval := base
    baseInterval := base
    maxInterval := maxI
    successCount := 0
    successesToReduce := succ }

/-- `RateLimiter::from_millis` (src/rate_limiter.rs:50): max = 16× base, reduce after 10. -/
def RateLimiter.fromMillis (name : String) (millis : ℕ) : RateLimiter :=
  RateLimiter.new name millis (millis * 16) 10

/-- `RateLimiter::wait_if_needed` (src/rate_limiter.rs:57): sleeps and stores
`Instant::now()`; it does not touch the interval or the success counter, so on
the modelled state it is the identity. -/
def RateLimiter.waitIfNeeded (s : RateLimiter) : RateLimiter := s

/-- `RateLimiter::report_success` (src/rate_limiter.rs:72). -/
def RateLimiter.reportSuccess (s : RateLimiter) : RateLimiter :=
  if s.successesToReduce = 0 then s
  else
    let sc := s.successCount + 1
    if sc ≥ s.successesToReduce ∧ s.currentInterval > s.baseInterval then
      let newInterval := s.currentInterval / 2
      let cur := if newInterval ≥ s.baseInterval then newInterval else s.baseInterval
      { s with currentInterval := cur, successCount := 0 }
    else
      { s with successCount := sc }

/-- `RateLimiter::report_failure` (src/rate_limiter.rs:93). -/
def RateLimiter.reportFailure (s : RateLimiter) : RateLimiter :=
  let newInterval := s.currentInterval * 2
  let cur := if newInterval ≤ s.maxInterval then newInterval else s.maxInterval
  { s with currentInterval := cur, successCount := 0 }

/-- C2: for a `RateLimiter` with base 1000 ms and default max 16× base,
`report_failure` doubles the interval (ceiling at max) and resets the success
counter; `wait_if_needed` then `report_failure` three times leaves
`current_interval = 8000` ms, and ten subsequent `report_success` calls leave
`current_interval = 4000` ms (and only the tenth success halves it). -/
theorem rateLimiter_backoff_scenario :
    (∀ s : RateLimiter,
        (s.reportFailure).currentInterval = min (2 * s.currentInterval) s.maxInterval ∧
        (s.reportFailure).successCount = 0) ∧
    (let r3 := (((RateLimiter.fromMillis "svc" 1000).waitIfNeeded).reportFailure.reportFailure).reportFailure
     r3.currentInterval = 8000 ∧
     (RateLimiter.reportSuccess^[9] r3).currentInterval = 8000 ∧
     (RateLimiter.reportSuccess^[10] r3).currentInterval = 4000) := by
  constructor
  · intro s
    constructor
    · simp only [RateLimiter.reportFailure]
      split
      · omega
      · omega
    · rfl
  · refine ⟨rfl, ?_, ?_⟩ <;> decide

/-! ## audio_analysis.rs — percentile level estimators

`estimate_noise_floor` / `estimate_music_level` (src/audio_analysis.rs:85-116,
duplicated in src/bin/boundary_finder.rs:235-258).  Percentile index
`(len as f64 * p) as usize` is modelled as `len * k / 100` (`ℕ` division);
`sorted[a..=b]` is `(sorted.drop a).take (b - a + 1)` guarded by the slice
bound `b < len` (`none` models the panic), and the fallback
`sorted[min(p, len - 1)]` is `get?` with `none` for the `len = 0` underflow. -/

/-- Rust's stable `slice::sort_by` with the ascending `partial_cmp` comparator,
modelled by the stable `insertionSort` (extensionally equal to any stable sort
for a total preorder comparator, and structurally recursive so that concrete
inputs evaluate). -/
def sortAsc (l : List ℚ) : List ℚ :=
  l.insertionSort (· ≤ ·)

/-- Mean of the inclusive slice `sorted[lo..=hi]` as in the percentile
estimators; `none` models the out-of-bounds slice panic. -/
def sliceMean (sorted : List ℚ) (lo hi : ℕ) : Option ℚ :=
  if hi < sorted.length then
    some (((sorted.drop lo).take (hi - lo + 1)).sum / ((hi - lo + 1 : ℕ) : ℚ))
  else none

/-- `estimate_noise_floor` (src/audio_analysis.rs:85): mean of the 5th-10th
percentile values of the sorted smoothed RMS curve; on the `p10 ≤ p5` fallback
the element at index `min(p5, len - 1)`, whose `len - 1` underflows (panics)
for the empty slice (`none`). -/
def estimateNoiseFloor (smoothed : List ℚ) : Option ℚ :=
  if (sortAsc smoothed).length * 10 / 100 > (sortAsc smoothed).length * 5 / 100 then
    sliceMean (sortAsc smoothed) ((sortAsc smoothed).length * 5 / 100)
      ((sortAsc smoothed).length * 10 / 100)
  else
    match (sortAsc smoothed).length with
    | 0 => none
    | n + 1 => (sortAsc smoothed).get? (min ((sortAsc smoothed).length * 5 / 100) n)

/-- `estimate_music_level` (src/audio_analysis.rs:106): mean of the 60th-80th
percentile values of the sorted smoothed RMS curve, same fallback shape as
`estimateNoiseFloor`. -/
def estimateMusicLevel (smoothed : List ℚ) : Option ℚ :=
  if (sortAsc smoothed).length * 80 / 100 > (sortAsc smoothed).length * 60 / 100 then
    sliceMean (sortAsc smoothed) ((sortAsc smoothed).length * 60 / 100)
      ((sortAsc smoothed).length * 80 / 100)
  else
    match (sortAsc smoothed).length with
    | 0 => none
    | n + 1 => (sortAsc smoothed).get? (min ((sortAsc smoothed).length * 60 / 100) n)

/-- The sorted copy has the length of the input. -/
theorem sortAsc_length (l : List ℚ) : (sortAsc l).length = l.length :=
  (List.perm_insertionSort (· ≤ ·) l).length_eq

/-- C10: on every non-empty input the percentile estimators' index computations
stay in bounds and a value (the mean over the selected range, or the clamped
fallback element) is returned; on the empty slice the fallback index `len - 1`
underflows, so both estimators hit the error branch. -/
theorem estimators_total_on_nonempty (s : List ℚ) (h : s ≠ []) :
    (estimateNoiseFloor s).isSome ∧ (estimateMusicLevel s).isSome ∧
    estimateNoiseFloor ([] : List ℚ) = none ∧
    estimateMusicLevel ([] : List ℚ) = none := by
  have hn : 0 < s.length := List.length_pos.mpr h
  have hlen := sortAsc_length s
  refine ⟨?_, ?_, rfl, rfl⟩
  · unfold estimateNoiseFloor
    rw [hlen]
    split
    · rw [sliceMean, if_pos (by omega)]
      simp
    · rcases hs : s.length with _ | n
      · omega
      · have hget : min ((n + 1) * 5 / 100) n < (sortAsc s).length := by
          rw [hlen, hs]; omega
        simp only [hs]
        rw [List.get?_eq_get hget]
        simp
  · unfold estimateMusicLevel
    rw [hlen]
    split
    · rw [sliceMean, if_pos (by omega)]
      simp
    · rcases hs : s.length with _ | n
      · omega
      · have hget : min ((n + 1) * 60 / 100) n < (sortAsc s).length := by
          rw [hlen, hs]; omega
        simp only [hs]
        rw [List.get?_eq_get hget]
        simp

/-- Witness for C10 at the concrete non-empty slice `[3, 1]`. -/
theorem estimators_total_on_nonempty_witness :
    ([(3 : ℚ), 1] ≠ [] ∧
      ((estimateNoiseFloor [(3 : ℚ), 1]).isSome ∧ (estimateMusicLevel [(3 : ℚ), 1]).isSome ∧
        estimateNoiseFloor ([] : List ℚ) = none ∧
        estimateMusicLevel ([] : List ℚ) = none)) :=
  ⟨by decide, estimators_total_on_nonempty [(3 : ℚ), 1] (by decide)⟩

/-! ## bin/boundary_finder.rs — valleys, the three filters, guided detection -/

/-- `Valley` (src/bin/boundary_finder.rs:73-82). -/
structure Valley where
  position : ℚ
  depth : ℚ
  prominence : ℚ
  leftLevel : ℚ
  rightLevel : ℚ
  width : ℚ
  score : ℚ
  deriving DecidableEq, Repr

instance : Inhabited Valley := ⟨⟨0, 0, 0, 0, 0, 0, 0⟩⟩

/-- `valleys.sort_by(|a, b| b.score.partial_cmp(&a.score)...)` (line 384):
stable sort by descending score. -/
def sortByScoreDesc (l : List Valley) : List Valley :=
  l.insertionSort (fun a b => b.score ≤ a.score)

/-- `filtered.sort_by(|a, b| a.position_seconds.partial_cmp(...))` (line 395):
stable sort by ascending position. -/
def sortByPosition (l : List Valley) : List Valley :=
  l.insertionSort (fun a b => a.position ≤ b.position)

/-- The proximity-filter loop (lines 386-393): walk the score-sorted valleys,
keeping a valley only when no already-kept valley is within
`min_song_duration_seconds` of it. -/
def proximityLoop (minSong : ℚ) : List Valley → List Valley → List Valley
  | acc, [] => acc
  | acc, v :: rest =>
    if acc.any (fun e => decide (|e.position - v.position| < minSong)) then
      proximityLoop minSong acc rest
    else
      proximityLoop minSong (acc ++ [v]) rest

/-- The largest-relative-gap scan over the ascending sorted scores
(lines 416-430): returns `(best_gap_ratio, best_gap_idx)`. -/
def bestGap (scores : List ℚ) : ℚ × ℕ :=
  (List.range (scores.length - 1)).foldl
    (fun best i =>
      if 0 < scores.getD i 0 then
        if best.1 < scores.getD (i + 1) 0 / scores.getD i 0 then
          (scores.getD (i + 1) 0 / scores.getD i 0, i)
        else best
      else best)
    (0, 0)

/-- The adaptive score-gap filter (lines 432-443): applied when the best gap
exceeds 1.5×, it drops everything with score at or below the lower side of the
gap. -/
def scoreGapFilter (filtered : List Valley) : List Valley :=
  if (bestGap (sortAsc (filtered.map Valley.score))).1 > 3 / 2 then
    filtered.filter (fun v =>
      decide (v.score > (sortAsc (filtered.map Valley.score)).getD
        (bestGap (sortAsc (filtered.map Valley.score))).2 0))
  else filtered

/-- The vinyl depth filter (lines 452-454): keep only valleys whose depth
reaches `noise_floor − 5 dB` (`filtered.retain(|v| v.depth_db <= depth_threshold)`). -/
def depthFilter (noiseFloor : ℚ) (l : List Valley) : List Valley :=
  l.filter (fun v => decide (v.depth ≤ noiseFloor - 5))

/-- The score-gap and depth filters run only when more than one valley remains
after the proximity filter (line 411: `if filtered.len() > 1`). -/
def filterStage (noiseFloor : ℚ) (sorted : List Valley) : List Valley :=
  if 1 < sorted.length then depthFilter noiseFloor (scoreGapFilter sorted) else sorted

/-- The complete filtering pipeline of `find_song_boundaries` applied to the
candidate valleys collected by the scan loop (lines 382-476): sort by score,
proximity-filter, sort by position, then the score-gap and depth filters. -/
def applyValleyFilters (minSong noiseFloor : ℚ) (valleys : List Valley) : List Valley :=
  filterStage noiseFloor (sortByPosition (proximityLoop minSong [] (sortByScoreDesc valleys)))

/-- `ExpectedTrack` (src/musicbrainz.rs:99-104). -/
structure ExpectedTrack where
  position : ℕ
  title : List Char
  lengthSeconds : ℚ
  expectedStart : ℚ
  deriving DecidableEq, Repr

instance : Inhabited ExpectedTrack := ⟨⟨0, [], 0, 0⟩⟩

/-- One step of the windowed-minimum scan of `find_guided_boundaries`
(lines 585-593): accept index `j` with timestamp `ts` when it lies in the
search window and improves the running minimum (strict `<`, so the earliest
minimum wins). -/
def winStep (smoothed : List ℚ) (wStart wEnd : ℚ) (best : Option (ℕ × ℚ × ℚ))
    (j : ℕ) (ts : ℚ) : Option (ℕ × ℚ × ℚ) :=
  if wStart ≤ ts ∧ ts ≤ wEnd ∧ j < smoothed.length then
    match best with
    | none => some (j, ts, smoothed.getD j 0)
    | some (_, _, br) =>
      if smoothed.getD j 0 < br then some (j, ts, smoothed.getD j 0) else best
  else best

/-- The windowed-minimum scan over `timestamps.iter().enumerate()`
(lines 581-593). -/
def bestInWindow (smoothed : List ℚ) (wStart wEnd : ℚ) :
    List (ℕ × ℚ) → Option (ℕ × ℚ × ℚ) → Option (ℕ × ℚ × ℚ)
  | [], best => best
  | (j, ts) :: rest, best =>
    bestInWindow smoothed wStart wEnd rest (winStep smoothed wStart wEnd best j ts)

/-- The per-boundary search of `find_guided_boundaries`: minimum of the
short-smoothed curve over the window `[p − w, p + w]` around the expected
position `p`. -/
def guidedSearch (smoothed timestamps : List ℚ) (expectedPos searchWindow : ℚ) :
    Option (ℕ × ℚ × ℚ) :=
  bestInWindow smoothed (expectedPos - searchWindow) (expectedPos + searchWindow)
    timestamps.enum none

/-- Left context average (lines 598-606): mean of `smoothed[j−75 .. j)`, or the
minimum's RMS when the window is empty. -/
def guidedLeftAvg (smoothed : List ℚ) (j : ℕ) (rms : ℚ) : ℚ :=
  if j - 75 < j then
    ((smoothed.drop (j - 75)).take (j - (j - 75))).sum / ((j - (j - 75) : ℕ) : ℚ)
  else rms

/-- Right context average (lines 600-613): mean of
`smoothed[j+1 .. min(j+75, len))`, or the minimum's RMS when empty. -/
def guidedRightAvg (smoothed : List ℚ) (j : ℕ) (rms : ℚ) : ℚ :=
  if j + 1 < min (j + 75) smoothed.length then
    ((smoothed.drop (j + 1)).take (min (j + 75) smoothed.length - (j + 1))).sum /
      ((min (j + 75) smoothed.length - (j + 1) : ℕ) : ℚ)
  else rms

/-- Valley construction for a guided boundary (lines 596-631): context averages
over 75 chunks on each side, prominence from the louder side, width 0,
score = prominence × 10. -/
def guidedValley (smoothed : List ℚ) (j : ℕ) (pos rms : ℚ) : Valley :=
  { position := pos
    depth := rms
    prominence :=
      max (max (guidedLeftAvg smoothed j rms) (guidedRightAvg smoothed j rms) - rms) 0
    leftLevel := guidedLeftAvg smoothed j rms
    rightLevel := guidedRightAvg smoothed j rms
    width := 0
    score := max (max (guidedLeftAvg smoothed j rms) (guidedRightAvg smoothed j rms) - rms) 0 * 10 }

/-- Loop body of `find_guided_boundaries` for expected-boundary index `i`
(lines 575-632): search around `music_start + expected_start`, pushing a valley
only when the window contained a sample. -/
def guidedStep (smoothed timestamps : List ℚ) (musicStart searchWindow : ℚ)
    (expected : List ExpectedTrack) (acc : List Valley) (i : ℕ) : List Valley :=
  match guidedSearch smoothed timestamps
      (musicStart + (expected.getD i default).expectedStart) searchWindow with
  | none => acc
  | some (j, pos, rms) => acc ++ [guidedValley smoothed j pos rms]

/-- `find_guided_boundaries` (src/bin/boundary_finder.rs:560-636). -/
def findGuidedBoundaries (smoothed timestamps : List ℚ) (expected : List ExpectedTrack)
    (musicStart searchWindow : ℚ) : List Valley :=
  if expected.length < 2 then []
  else
    (List.range' 1 (expected.length - 1)).foldl
      (guidedStep smoothed timestamps musicStart searchWindow expected) []

/-- C1 (amended): the depth filter keeps exactly the valleys whose depth is at
or below `noise_floor − 5 dB` — every valley strictly above the threshold is
discarded, while a valley exactly at `noise_floor − 5 dB` passes, as does one
at `noise_floor − 5.01 dB`. -/
theorem depthFilter_mem (nf : ℚ) (l : List Valley) (v : Valley) :
    v ∈ depthFilter nf l ↔ v ∈ l ∧ v.depth ≤ nf - 5 := by
  simp [depthFilter, List.mem_filter]

/-- C1 counterexample: with noise floor −40 dB, a valley whose depth is exactly
−45 dB = noise_floor − 5 dB is retained by the depth filter, contradicting the
claim that it is rejected there (a −45.01 dB valley is retained as well). -/
theorem depthFilter_exact_boundary_kept :
    depthFilter (-40) [⟨300, -45, 10, -20, -20, 2, 50⟩] =
      [⟨300, -45, 10, -20, -20, 2, 50⟩] ∧
    (-45 : ℚ) = -40 - 5 ∧
    depthFilter (-40) [⟨300, -45 - 1 / 100, 10, -20, -20, 2, 50⟩] =
      [⟨300, -45 - 1 / 100, 10, -20, -20, 2, 50⟩] := by
  refine ⟨?_, by norm_num, ?_⟩ <;>
    · simp only [depthFilter, List.filter]
      norm_num

/-- C3 counterexample: on a curve with a single sample at 35 s and expected
track starts 0 / 30 / 40 s, the two guided search windows `[20, 40]` and
`[30, 50]` overlap and both pick the same minimum, so the guided boundary
positions `[35, 35]` are not strictly increasing. -/
theorem guided_positions_not_strictly_increasing :
    (findGuidedBoundaries [-60] [35] [⟨1, [], 30, 0⟩, ⟨2, [], 10, 30⟩, ⟨3, [], 10, 40⟩]
        0 10).map Valley.position = [35, 35] ∧
    ¬ List.Pairwise (fun a b : ℚ => a < b)
        ((findGuidedBoundaries [-60] [35] [⟨1, [], 30, 0⟩, ⟨2, [], 10, 30⟩, ⟨3, [], 10, 40⟩]
          0 10).map Valley.position) := by
  have h : (findGuidedBoundaries [-60] [35]
      [⟨1, [], 30, 0⟩, ⟨2, [], 10, 30⟩, ⟨3, [], 10, 40⟩] 0 10).map Valley.position
      = [(35 : ℚ), 35] := by
    norm_num [findGuidedBoundaries, guidedStep, guidedSearch, bestInWindow, winStep, guidedValley,
      guidedLeftAvg, guidedRightAvg, List.enum, List.enumFrom, List.range']
  refine ⟨h, ?_⟩
  rw [h]
  intro hp
  exact absurd (List.rel_of_pairwise_cons hp (List.mem_singleton.mpr rfl)) (lt_irrefl 35)

/-- C6 counterexample: with a single timestamp at 0 s and an expected boundary
at 100 s, the ±10 s search window contains no sample, so `find_guided_boundaries`
returns no boundary at all instead of `len(expected) − 1 = 1` of them. -/
theorem guided_count_not_unconditional :
    findGuidedBoundaries [-60] [0] [⟨1, [], 100, 0⟩, ⟨2, [], 100, 100⟩] 0 10 = [] ∧
    ([(⟨1, [], 100, 0⟩ : ExpectedTrack), ⟨2, [], 100, 100⟩].length - 1 : ℕ) = 1 := by
  constructor
  · norm_num [findGuidedBoundaries, guidedStep, guidedSearch, bestInWindow, winStep, guidedValley,
      guidedLeftAvg, guidedRightAvg, List.enum, List.enumFrom, List.range']
  · decide

instance : IsTotal Valley (fun a b => a.position ≤ b.position) :=
  ⟨fun a b => le_total a.position b.position⟩

instance : IsTrans Valley (fun a b => a.position ≤ b.position) :=
  ⟨fun _ _ _ h h2 => le_trans h h2⟩

/-- The proximity loop only ever produces lists whose members are pairwise at
least `min_song_duration` apart, provided the accumulator already is. -/
theorem proximityLoop_pairwise (minSong : ℚ) :
    ∀ (l acc : List Valley),
      acc.Pairwise (fun a b => minSong ≤ |a.position - b.position|) →
      (proximityLoop minSong acc l).Pairwise
        (fun a b => minSong ≤ |a.position - b.position|) := by
  intro l
  induction l with
  | nil => intro acc h; exact h
  | cons v rest ih =>
    intro acc h
    simp only [proximityLoop]
    split
    · exact ih acc h
    · rename_i hany
      apply ih
      rw [List.pairwise_append]
      refine ⟨h, List.pairwise_singleton _ _, ?_⟩
      intro a ha b hb
      rw [List.mem_singleton] at hb
      rw [hb]
      have hfalse : acc.any (fun e => decide (|e.position - v.position| < minSong)) = false :=
        Bool.not_eq_true _ ▸ eq_false_of_ne_true hany
      have := List.any_eq_false.mp hfalse a ha
      simp only [decide_eq_true_eq] at this
      exact not_lt.mp this

/-- The score-gap filter preserves any pairwise property. -/
theorem scoreGapFilter_pairwise {R : Valley → Valley → Prop} {l : List Valley}
    (h : l.Pairwise R) : (scoreGapFilter l).Pairwise R := by
  unfold scoreGapFilter
  split
  · exact h.filter _
  · exact h

/-- C3 (amended): for every candidate valley list, the autonomous filter
pipeline of `find_song_boundaries` (score sort, proximity filter, position
sort, score-gap filter, depth filter) emits valleys in strictly increasing
position order with any two of them at least `min_song_duration` apart,
whenever `min_song_duration` is positive (default 30 s).  (The guided variant
does not share this property — see the counterexample.) -/
theorem autonomous_valleys_strictly_increasing (minSong nf : ℚ) (hms : 0 < minSong)
    (valleys : List Valley) :
    (applyValleyFilters minSong nf valleys).Pairwise
      (fun a b => a.position < b.position ∧ minSong ≤ |a.position - b.position|) := by
  have hsym : ∀ {a b : Valley}, minSong ≤ |a.position - b.position| →
      minSong ≤ |b.position - a.position| := by
    intro a b hab
    rwa [abs_sub_comm]
  have hprox : (proximityLoop minSong [] (sortByScoreDesc valleys)).Pairwise
      (fun a b => minSong ≤ |a.position - b.position|) :=
    proximityLoop_pairwise minSong (sortByScoreDesc valleys) [] List.Pairwise.nil
  have hperm := List.perm_insertionSort (fun a b : Valley => a.position ≤ b.position)
    (proximityLoop minSong [] (sortByScoreDesc valleys))
  have hsep : (sortByPosition (proximityLoop minSong [] (sortByScoreDesc valleys))).Pairwise
      (fun a b => minSong ≤ |a.position - b.position|) :=
    (hperm.pairwise_iff fun h => hsym h).mpr hprox
  have hsorted : (sortByPosition (proximityLoop minSong [] (sortByScoreDesc valleys))).Pairwise
      (fun a b => a.position ≤ b.position) :=
    List.sorted_insertionSort _ _
  have hboth := hsorted.and hsep
  have hstrict : (sortByPosition (proximityLoop minSong [] (sortByScoreDesc valleys))).Pairwise
      (fun a b => a.position < b.position ∧ minSong ≤ |a.position - b.position|) := by
    refine hboth.imp ?_
    intro a b hab
    refine ⟨lt_of_le_of_ne hab.1 ?_, hab.2⟩
    intro heq
    have : |a.position - b.position| = 0 := by rw [heq]; simp
    rw [this] at hab
    exact absurd (lt_of_lt_of_le hms hab.2) (lt_irrefl 0)
  unfold applyValleyFilters filterStage
  split
  · exact (scoreGapFilter_pairwise hstrict).filter _
  · exact hstrict

/-- Witness for C3 at `min_song_duration = 30 s`, noise floor −40 dB and two
concrete candidate valleys. -/
theorem autonomous_valleys_strictly_increasing_witness :
    (0 : ℚ) < 30 ∧
    (applyValleyFilters 30 (-40) [⟨100, -50, 10, -20, -20, 2, 40⟩,
        ⟨200, -52, 11, -21, -21, 2, 60⟩]).Pairwise
      (fun a b => a.position < b.position ∧ (30 : ℚ) ≤ |a.position - b.position|) :=
  ⟨by norm_num,
    autonomous_valleys_strictly_increasing 30 (-40) (by norm_num)
      [⟨100, -50, 10, -20, -20, 2, 40⟩, ⟨200, -52, 11, -21, -21, 2, 60⟩]⟩

/-- Specification of the windowed-minimum scan: a returned minimum comes either
from the initial accumulator or from a scanned window sample, never exceeds the
initial accumulator's value, and is a lower bound on the smoothed value of
every scanned window sample. -/
theorem bestInWindow_spec (smoothed : List ℚ) (ws we : ℚ) :
    ∀ (pairs : List (ℕ × ℚ)) (best : Option (ℕ × ℚ × ℚ)) (j : ℕ) (p r : ℚ),
      bestInWindow smoothed ws we pairs best = some (j, p, r) →
      (∀ kt ∈ pairs, ws ≤ kt.2 → kt.2 ≤ we → kt.1 < smoothed.length →
          r ≤ smoothed.getD kt.1 0) ∧
      (best = some (j, p, r) ∨
        ((j, p) ∈ pairs ∧ ws ≤ p ∧ p ≤ we ∧ j < smoothed.length ∧
          r = smoothed.getD j 0)) ∧
      (∀ bj bp br, best = some (bj, bp, br) → r ≤ br) := by
  intro pairs
  induction pairs with
  | nil =>
    intro best j p r hres
    simp only [bestInWindow] at hres
    refine ⟨by simp, Or.inl hres, ?_⟩
    intro bj bp br hb
    rw [hres] at hb
    simp only [Option.some.injEq, Prod.mk.injEq] at hb
    exact le_of_eq hb.2.2
  | cons kt0 rest ih =>
    obtain ⟨k, t⟩ := kt0
    intro best j p r hres
    simp only [bestInWindow] at hres
    by_cases hc : ws ≤ t ∧ t ≤ we ∧ k < smoothed.length
    · rcases best with _ | ⟨bj2, bp2, br2⟩
      · have hstep : winStep smoothed ws we none k t = some (k, t, smoothed.getD k 0) := by
          unfold winStep
          rw [if_pos hc]
        rw [hstep] at hres
        obtain ⟨ihmin, ihsrc, ihle⟩ := ih _ j p r hres
        have hrk : r ≤ smoothed.getD k 0 := ihle k t _ rfl
        refine ⟨?_, ?_, ?_⟩
        · intro kt hmem hws hwe hlen
          rcases List.mem_cons.mp hmem with hh | hr
          · rw [hh]
            exact hrk
          · exact ihmin kt hr hws hwe hlen
        · rcases ihsrc with hsrc | hsrc
          · simp only [Option.some.injEq, Prod.mk.injEq] at hsrc
            obtain ⟨rfl, rfl, rfl⟩ := hsrc
            exact Or.inr ⟨List.mem_cons_self _ _, hc.1, hc.2.1, hc.2.2, rfl⟩
          · exact Or.inr ⟨List.mem_cons_of_mem _ hsrc.1, hsrc.2⟩
        · intro bj bp br hb
          exact Option.noConfusion hb
      · by_cases hlt : smoothed.getD k 0 < br2
        · have hstep : winStep smoothed ws we (some (bj2, bp2, br2)) k t =
              some (k, t, smoothed.getD k 0) := by
            unfold winStep
            rw [if_pos hc]
            exact if_pos hlt
          rw [hstep] at hres
          obtain ⟨ihmin, ihsrc, ihle⟩ := ih _ j p r hres
          have hrk : r ≤ smoothed.getD k 0 := ihle k t _ rfl
          refine ⟨?_, ?_, ?_⟩
          · intro kt hmem hws hwe hlen
            rcases List.mem_cons.mp hmem with hh | hr
            · rw [hh]
              exact hrk
            · exact ihmin kt hr hws hwe hlen
          · rcases ihsrc with hsrc | hsrc
            · simp only [Option.some.injEq, Prod.mk.injEq] at hsrc
              obtain ⟨rfl, rfl, rfl⟩ := hsrc
              exact Or.inr ⟨List.mem_cons_self _ _, hc.1, hc.2.1, hc.2.2, rfl⟩
            · exact Or.inr ⟨List.mem_cons_of_mem _ hsrc.1, hsrc.2⟩
          · intro bj bp br hb
            simp only [Option.some.injEq, Prod.mk.injEq] at hb
            rw [← hb.2.2]
            exact le_of_lt (lt_of_le_of_lt hrk hlt)
        · have hstep : winStep smoothed ws we (some (bj2, bp2, br2)) k t =
              some (bj2, bp2, br2) := by
            unfold winStep
            rw [if_pos hc]
            exact if_neg hlt
          rw [hstep] at hres
          obtain ⟨ihmin, ihsrc, ihle⟩ := ih _ j p r hres
          have hrb : r ≤ br2 := ihle bj2 bp2 br2 rfl
          refine ⟨?_, ?_, ?_⟩
          · intro kt hmem hws hwe hlen
            rcases List.mem_cons.mp hmem with hh | hr
            · rw [hh]
              exact le_trans hrb (not_lt.mp hlt)
            · exact ihmin kt hr hws hwe hlen
          · rcases ihsrc with hsrc | hsrc
            · exact Or.inl hsrc
            · exact Or.inr ⟨List.mem_cons_of_mem _ hsrc.1, hsrc.2⟩
          · intro bj bp br hb
            simp only [Option.some.injEq, Prod.mk.injEq] at hb
            rw [← hb.2.2]
            exact hrb
    · have hstep : winStep smoothed ws we best k t = best := by
        unfold winStep
        rw [if_neg hc]
      rw [hstep] at hres
      obtain ⟨ihmin, ihsrc, ihle⟩ := ih best j p r hres
      refine ⟨?_, ?_, ihle⟩
      · intro kt hmem hws hwe hlen
        rcases List.mem_cons.mp hmem with hh | hr
        · exfalso
          apply hc
          rw [hh] at hws hwe hlen
          exact ⟨hws, hwe, hlen⟩
        · exact ihmin kt hr hws hwe hlen
      · rcases ihsrc with hsrc | hsrc
        · exact Or.inl hsrc
        · exact Or.inr ⟨List.mem_cons_of_mem _ hsrc.1, hsrc.2⟩

/-- Each guided step appends at most one valley. -/
theorem guidedStep_length_le (smoothed T : List ℚ) (ms w : ℚ)
    (expected : List ExpectedTrack) (acc : List Valley) (i : ℕ) :
    (guidedStep smoothed T ms w expected acc i).length ≤ acc.length + 1 := by
  unfold guidedStep
  split <;> simp

/-- A guided step appends exactly one valley when the search window is
non-empty (the search succeeded). -/
theorem guidedStep_length_eq (smoothed T : List ℚ) (ms w : ℚ)
    (expected : List ExpectedTrack) (acc : List Valley) (i : ℕ)
    (h : (guidedSearch smoothed T (ms + (expected.getD i default).expectedStart) w).isSome) :
    (guidedStep smoothed T ms w expected acc i).length = acc.length + 1 := by
  unfold guidedStep
  split
  · rename_i heq
    rw [heq] at h
    cases h
  · simp

/-- Folding the guided step adds at most one valley per expected boundary. -/
theorem guidedFold_length_le (smoothed T : List ℚ) (ms w : ℚ)
    (expected : List ExpectedTrack) :
    ∀ (idxs : List ℕ) (acc : List Valley),
      (idxs.foldl (guidedStep smoothed T ms w expected) acc).length ≤
        acc.length + idxs.length := by
  intro idxs
  induction idxs with
  | nil => intro acc; simp
  | cons i rest ihr =>
    intro acc
    calc (List.foldl (guidedStep smoothed T ms w expected)
            (guidedStep smoothed T ms w expected acc i) rest).length ≤
          (guidedStep smoothed T ms w expected acc i).length + rest.length := ihr _
      _ ≤ acc.length + 1 + rest.length := by
          have := guidedStep_length_le smoothed T ms w expected acc i
          omega
      _ = acc.length + (i :: rest).length := by simp; omega

/-- Folding the guided step adds exactly one valley per expected boundary when
every search window is non-empty. -/
theorem guidedFold_length_eq (smoothed T : List ℚ) (ms w : ℚ)
    (expected : List ExpectedTrack) :
    ∀ (idxs : List ℕ) (acc : List Valley),
      (∀ i ∈ idxs,
        (guidedSearch smoothed T (ms + (expected.getD i default).expectedStart) w).isSome) →
      (idxs.foldl (guidedStep smoothed T ms w expected) acc).length =
        acc.length + idxs.length := by
  intro idxs
  induction idxs with
  | nil => intro acc _; simp
  | cons i rest ihr =>
    intro acc hall
    have hstep := guidedStep_length_eq smoothed T ms w expected acc i
      (hall i (List.mem_cons_self _ _))
    have hrest := ihr (guidedStep smoothed T ms w expected acc i)
      (fun i2 hi2 => hall i2 (List.mem_cons_of_mem _ hi2))
    rw [List.foldl_cons, hrest, hstep]
    simp
    omega

/-- C6 (amended): the guided boundary finder yields at most
`len(expected) − 1` boundaries; it yields exactly `len(expected) − 1` when
each expected boundary's ±`search_window` window contains at least one curve
sample (the yield is not unconditional — see the counterexample); and every
successful per-boundary search returns the position of a minimum of the
short-smoothed curve within the window around the expected position. -/
theorem guided_boundaries_spec :
    (∀ (smoothed T : List ℚ) (expected : List ExpectedTrack) (ms w : ℚ),
        (findGuidedBoundaries smoothed T expected ms w).length ≤ expected.length - 1) ∧
    (∀ (smoothed T : List ℚ) (expected : List ExpectedTrack) (ms w : ℚ),
        2 ≤ expected.length →
        (∀ i ∈ List.range' 1 (expected.length - 1),
          (guidedSearch smoothed T (ms + (expected.getD i default).expectedStart) w).isSome) →
        (findGuidedBoundaries smoothed T expected ms w).length = expected.length - 1) ∧
    (∀ (smoothed T : List ℚ) (ep w : ℚ) (j : ℕ) (p r : ℚ),
        guidedSearch smoothed T ep w = some (j, p, r) →
        T.get? j = some p ∧ smoothed.get? j = some r ∧ ep - w ≤ p ∧ p ≤ ep + w ∧
        ∀ k, k < T.length → k < smoothed.length → ep - w ≤ T.getD k 0 →
          T.getD k 0 ≤ ep + w → r ≤ smoothed.getD k 0) := by
  refine ⟨?_, ?_, ?_⟩
  · intro smoothed T expected ms w
    unfold findGuidedBoundaries
    split
    · simp
    · calc ((List.range' 1 (expected.length - 1)).foldl
            (guidedStep smoothed T ms w expected) []).length ≤
            ([] : List Valley).length + (List.range' 1 (expected.length - 1)).length :=
          guidedFold_length_le smoothed T ms w expected _ []
        _ = expected.length - 1 := by simp
  · intro smoothed T expected ms w h2 hall
    unfold findGuidedBoundaries
    rw [if_neg (by omega)]
    rw [guidedFold_length_eq smoothed T ms w expected _ [] hall]
    simp
  · intro smoothed T ep w j p r hres
    obtain ⟨hmin, hsrc, _⟩ :=
      bestInWindow_spec smoothed (ep - w) (ep + w) T.enum none j p r hres
    rcases hsrc with hsrc | hsrc
    · cases hsrc
    · obtain ⟨hmem, hws, hwe, hjlen, hval⟩ := hsrc
      have hTj : T.get? j = some p := List.mem_enum_iff_get?.mp hmem
      refine ⟨hTj, ?_, hws, hwe, ?_⟩
      · rw [List.getD_eq_get?] at hval
        cases hsj : smoothed.get? j with
        | none =>
          rw [List.get?_eq_none] at hsj
          omega
        | some v =>
          simp only [hsj, Option.getD_some] at hval
          rw [hval]
      · intro k hkT hkS hws2 hwe2
        have hkmem : (k, T.getD k 0) ∈ T.enum := by
          rw [List.mem_enum_iff_get?]
          rw [List.getD_eq_get?, List.get?_eq_get hkT]
          rfl
        exact hmin (k, T.getD k 0) hkmem hws2 hwe2 hkS

/-- Witness for C6 at a concrete curve where every search window contains a
sample: exactly `len(expected) − 1 = 1` boundary is produced. -/
theorem guided_boundaries_spec_witness :
    (findGuidedBoundaries [(-60 : ℚ), -50] [(0 : ℚ), 1]
        [⟨1, [], 1, 0⟩, ⟨2, [], 1, 1⟩] 0 10).length =
      ([(⟨1, [], 1, 0⟩ : ExpectedTrack), ⟨2, [], 1, 1⟩]).length - 1 :=
  guided_boundaries_spec.2.1 [(-60 : ℚ), -50] [(0 : ℚ), 1]
    [⟨1, [], 1, 0⟩, ⟨2, [], 1, 1⟩] 0 10 (by norm_num)
    (by
      intro i hi
      simp only [List.length_cons, List.length_nil] at hi
      norm_num [List.range'] at hi
      subst hi
      norm_num [guidedSearch, bestInWindow, winStep, List.enum, List.enumFrom])

/-! ## album_finder.rs — per-side scoring and greedy side assignment

Strings are `List Char`; `to_lowercase` is `Char.toLower` per character,
`split_whitespace` splits on whitespace characters dropping empty words, and
`str::contains` is substring containment. -/

/-- Per-character lowercasing (`str::to_lowercase`). -/
def toLowerList (s : List Char) : List Char :=
  s.map Char.toLower

/-- Substring containment (`str::contains`): some suffix of the haystack starts
with the needle. -/
def containsSub (needle : List Char) : List Char → Bool
  | [] => needle.isPrefixOf []
  | c :: t => needle.isPrefixOf (c :: t) || containsSub needle t

/-- Accumulator-based `split_whitespace`: `cur` holds the current word
reversed. -/
def splitWsAux : List Char → List Char → List (List Char)
  | [], cur => if cur = [] then [] else [cur.reverse]
  | c :: rest, cur =>
    if c.isWhitespace then
      if cur = [] then splitWsAux rest []
      else cur.reverse :: splitWsAux rest []
    else splitWsAux rest (c :: cur)

/-- `str::split_whitespace`: whitespace-separated words, no empties. -/
def splitWs (s : List Char) : List (List Char) :=
  splitWsAux s []

/-- `IdentifiedSong` (src/album_identifier.rs:74-79). -/
structure IdentifiedSong where
  timestamp : ℚ
  title : List Char
  artist : List Char
  album : Option (List Char)
  deriving DecidableEq, Repr

/-- `DiscogsTrack` (src/discogs.rs:168-176). -/
structure DiscogsTrack where
  position : List Char
  side : Char
  title : List Char
  durationSecs : ℚ
  deriving DecidableEq, Repr

/-- `DiscogsSide` (src/discogs.rs:180-184). -/
structure DiscogsSide where
  label : Char
  tracks : List DiscogsTrack
  totalDuration : ℚ
  deriving DecidableEq, Repr

instance : Inhabited DiscogsSide := ⟨⟨Char.ofNat 63, [], 0⟩⟩

/-- `FileInfo` (src/album_finder.rs:34-41). -/
structure FileInfo where
  path : List Char
  songs : List IdentifiedSong
  musicDuration : ℚ
  deriving DecidableEq, Repr

instance : Inhabited FileInfo := ⟨⟨[], [], 0⟩⟩

/-- The fuzzy track-vs-song match of `score_file_vs_side`
(src/album_finder.rs:339-355): the lowercased track title must contain at
least one whitespace-separated word of length ≥ 3 of the lowercased song
title, and the fraction of such words it contains must be ≥ 0.3. -/
def fuzzyTrackMatch (songTitle trackTitle : List Char) : Bool :=
  decide (1 ≤ (((splitWs (toLowerList songTitle)).filter (fun w => 3 ≤ w.length)).filter
      (fun w => containsSub w (toLowerList trackTitle))).length) &&
  decide ((3 : ℚ) / 10 ≤
    ((((splitWs (toLowerList songTitle)).filter (fun w => 3 ≤ w.length)).filter
        (fun w => containsSub w (toLowerList trackTitle))).length : ℚ) /
      ((max ((splitWs (toLowerList songTitle)).filter (fun w => 3 ≤ w.length)).length 1 : ℕ) : ℚ))

/-- Number of song titles that fuzzy-match some track of the side
(the `song_matches` counter with its early `break`). -/
def songMatches (songTitles : List (List Char)) (side : DiscogsSide) : ℕ :=
  songTitles.countP (fun s => side.tracks.any (fun tr => fuzzyTrackMatch s tr.title))

/-- `score_file_vs_side` (src/album_finder.rs:328-373). -/
def scoreFileVsSide (file : FileInfo) (side : DiscogsSide)
    (songTitles : List (List Char)) : ℚ :=
  if side.tracks = [] ∨ songTitles = [] then 0
  else
    ((songMatches songTitles side : ℚ) / ((max songTitles.length 1 : ℕ) : ℚ)) * 100 +
      (if 0 < side.totalDuration then
          max (1 - |side.totalDuration - file.musicDuration| / file.musicDuration * 10) 0
        else 1 / 2) * 10

/-- Spec-side definition (from the claim's words): `song_overlap` is the
fraction of the file's song titles that fuzzy-match some track title of the
side. -/
def specSongOverlap (songTitles : List (List Char)) (side : DiscogsSide) : ℚ :=
  (songMatches songTitles side : ℚ) / (songTitles.length : ℚ)

/-- Spec-side definition (from the claim's words):
`duration_score = max(0, 1 − 10·|side_total − file_dur|/file_dur)` when
`side_total > 0`, else the neutral 0.5. -/
def specDurationScore (sideTotal fileDur : ℚ) : ℚ :=
  if 0 < sideTotal then max (1 - 10 * |sideTotal - fileDur| / fileDur) 0 else 1 / 2

/-- Spec-side definition (from the claim's words):
`score = 100·song_overlap + 10·duration_score`. -/
def specScore (file : FileInfo) (side : DiscogsSide) (songTitles : List (List Char)) : ℚ :=
  100 * specSongOverlap songTitles side +
    10 * specDurationScore side.totalDuration file.musicDuration

/-- C5 (amended): whenever the file has at least one identified song title and
the side at least one track, the implemented score agrees with the spec
formula `100·song_overlap + 10·duration_score`; with an empty song list or an
empty track list the implementation returns 0 instead. -/
theorem scoreFileVsSide_formula (file : FileInfo) (side : DiscogsSide)
    (songTitles : List (List Char)) (h1 : songTitles ≠ []) (h2 : side.tracks ≠ []) :
    scoreFileVsSide file side songTitles = specScore file side songTitles := by
  unfold scoreFileVsSide specScore specSongOverlap specDurationScore
  rw [if_neg (by push_neg; exact ⟨h2, h1⟩)]
  have hlen : songTitles.length ≠ 0 := by
    intro h0
    exact h1 (List.length_eq_zero.mp h0)
  have hmax : max songTitles.length 1 = songTitles.length := by omega
  rw [hmax]
  split <;> ring_nf

/-- C5 counterexample: for a file with no identified songs, a 100 s music
region and a side with one track totalling 100 s, the implementation returns
0 while the claimed formula yields `100·0 + 10·1 = 10`. -/
theorem scoreFileVsSide_empty_songs_cex :
    scoreFileVsSide ⟨[], [], 100⟩
        ⟨Char.ofNat 65, [⟨[Char.ofNat 65], Char.ofNat 65, [], 100⟩], 100⟩ [] = 0 ∧
    specScore ⟨[], [], 100⟩
        ⟨Char.ofNat 65, [⟨[Char.ofNat 65], Char.ofNat 65, [], 100⟩], 100⟩ [] = 10 ∧
    (0 : ℚ) ≠ 10 := by
  refine ⟨?_, ?_, by norm_num⟩
  · rw [scoreFileVsSide]
    norm_num
  · rw [specScore, specSongOverlap, specDurationScore, songMatches]
    norm_num

/-- Witness for C5 with one song title and one matching track. -/
theorem scoreFileVsSide_formula_witness :
    ([[Char.ofNat 97, Char.ofNat 98, Char.ofNat 99]] : List (List Char)) ≠ [] ∧
    ([⟨[Char.ofNat 65], Char.ofNat 65, [Char.ofNat 97, Char.ofNat 98, Char.ofNat 99], 100⟩] :
      List DiscogsTrack) ≠ [] ∧
    scoreFileVsSide ⟨[], [], 100⟩
        ⟨Char.ofNat 65, [⟨[Char.ofNat 65], Char.ofNat 65,
          [Char.ofNat 97, Char.ofNat 98, Char.ofNat 99], 100⟩], 100⟩
        [[Char.ofNat 97, Char.ofNat 98, Char.ofNat 99]] =
      specScore ⟨[], [], 100⟩
        ⟨Char.ofNat 65, [⟨[Char.ofNat 65], Char.ofNat 65,
          [Char.ofNat 97, Char.ofNat 98, Char.ofNat 99], 100⟩], 100⟩
        [[Char.ofNat 97, Char.ofNat 98, Char.ofNat 99]] :=
  ⟨by decide, by decide,
    scoreFileVsSide_formula _ _ _ (by decide) (by decide)⟩

/-- The per-file song-title list used to build the score matrix
(src/album_finder.rs:252-254). -/
def fileSongTitles (file : FileInfo) : List (List Char) :=
  file.songs.map IdentifiedSong.title

/-- The N×M score matrix of `assign_files_to_sides`
(src/album_finder.rs:246-259), as a function of the indices. -/
def scoreMatrix (files : List FileInfo) (sides : List DiscogsSide) (fi si : ℕ) : ℚ :=
  scoreFileVsSide (files.getD fi default) (sides.getD si default)
    (fileSongTitles (files.getD fi default))

/-- One comparison step of the best-pair scan (src/album_finder.rs:294-304):
skip assigned files/sides, keep the strictly larger score (`>`), the running
best starting from `f64::NEG_INFINITY` (modelled by `none`). -/
def considerPair (scores : ℕ → ℕ → ℚ) (af as2 : List ℕ)
    (best : Option (ℕ × ℕ × ℚ)) (fi si : ℕ) : Option (ℕ × ℕ × ℚ) :=
  if fi ∈ af ∨ si ∈ as2 then best
  else
    match best with
    | none => some (fi, si, scores fi si)
    | some (_, _, b) => if b < scores fi si then some (fi, si, scores fi si) else best

/-- The double loop over `0..n_files × 0..n_sides` selecting the best
unassigned pair (src/album_finder.rs:290-304). -/
def findBest (scores : ℕ → ℕ → ℚ) (n m : ℕ) (af as2 : List ℕ) : Option (ℕ × ℕ × ℚ) :=
  (List.range n ×ˢ List.range m).foldl
    (fun acc fs => considerPair scores af as2 acc fs.1 fs.2) none

/-- The greedy assignment loop (src/album_finder.rs:289-320): at most
`pairs_to_assign = min(n_files, n_sides)` iterations, stopping when the best
remaining score is ≤ 0, otherwise assigning the pair and removing both from
the pool. -/
def greedyGo (scores : ℕ → ℕ → ℚ) (n m : ℕ) : ℕ → List ℕ → List ℕ → List (ℕ × ℕ)
  | 0, _, _ => []
  | fuel + 1, af, as2 =>
    match findBest scores n m af as2 with
    | none => []
    | some (fi, si, sc) =>
      if sc ≤ 0 then []
      else (fi, si) :: greedyGo scores n m fuel (fi :: af) (si :: as2)

/-- `assign_files_to_sides` (src/album_finder.rs:237-324), at the level of the
chosen (file index, side index) pairs; an empty side list returns
immediately. -/
def assignFilesToSides (files : List FileInfo) (sides : List DiscogsSide) : List (ℕ × ℕ) :=
  if sides = [] then []
  else
    greedyGo (scoreMatrix files sides) files.length sides.length
      (min files.length sides.length) [] []

/-- Specification of the best-pair scan fold: a returned pair is unassigned
with its own score, dominates every unassigned scanned pair, and dominates the
initial accumulator. -/
theorem considerFold_spec (scores : ℕ → ℕ → ℚ) (af as2 : List ℕ) :
    ∀ (pairs : List (ℕ × ℕ)) (acc : Option (ℕ × ℕ × ℚ)) (fi si : ℕ) (sc : ℚ),
      pairs.foldl (fun acc fs => considerPair scores af as2 acc fs.1 fs.2) acc =
          some (fi, si, sc) →
      (∀ q ∈ pairs, q.1 ∉ af → q.2 ∉ as2 → scores q.1 q.2 ≤ sc) ∧
      (acc = some (fi, si, sc) ∨
        ((fi, si) ∈ pairs ∧ fi ∉ af ∧ si ∉ as2 ∧ sc = scores fi si)) ∧
      (∀ a b c, acc = some (a, b, c) → c ≤ sc) := by
  intro pairs
  induction pairs with
  | nil =>
    intro acc fi si sc hres
    simp only [List.foldl_nil] at hres
    refine ⟨by simp, Or.inl hres, ?_⟩
    intro a b c hb
    rw [hres] at hb
    simp only [Option.some.injEq, Prod.mk.injEq] at hb
    exact le_of_eq hb.2.2.symm
  | cons q0 rest ih =>
    obtain ⟨k, t⟩ := q0
    intro acc fi si sc hres
    simp only [List.foldl_cons] at hres
    by_cases hc : k ∈ af ∨ t ∈ as2
    · have hstep : considerPair scores af as2 acc k t = acc := by
        unfold considerPair
        rw [if_pos hc]
      rw [hstep] at hres
      obtain ⟨ihmax, ihsrc, ihle⟩ := ih acc fi si sc hres
      refine ⟨?_, ?_, ihle⟩
      · intro q hmem hqf hqs
        rcases List.mem_cons.mp hmem with hh | hr
        · exfalso
          rw [hh] at hqf hqs
          rcases hc with hc | hc
          · exact hqf hc
          · exact hqs hc
        · exact ihmax q hr hqf hqs
      · rcases ihsrc with hsrc | hsrc
        · exact Or.inl hsrc
        · exact Or.inr ⟨List.mem_cons_of_mem _ hsrc.1, hsrc.2⟩
    · push_neg at hc
      rcases acc with _ | ⟨a0, b0, c0⟩
      · have hstep : considerPair scores af as2 none k t = some (k, t, scores k t) := by
          unfold considerPair
          rw [if_neg (by push_neg; exact hc)]
        rw [hstep] at hres
        obtain ⟨ihmax, ihsrc, ihle⟩ := ih _ fi si sc hres
        have hkt : scores k t ≤ sc := ihle k t _ rfl
        refine ⟨?_, ?_, ?_⟩
        · intro q hmem hqf hqs
          rcases List.mem_cons.mp hmem with hh | hr
          · rw [hh]
            exact hkt
          · exact ihmax q hr hqf hqs
        · rcases ihsrc with hsrc | hsrc
          · simp only [Option.some.injEq, Prod.mk.injEq] at hsrc
            obtain ⟨rfl, rfl, rfl⟩ := hsrc
            exact Or.inr ⟨List.mem_cons_self _ _, hc.1, hc.2, rfl⟩
          · exact Or.inr ⟨List.mem_cons_of_mem _ hsrc.1, hsrc.2⟩
        · intro a b c hb
          exact Option.noConfusion hb
      · by_cases hlt : c0 < scores k t
        · have hstep : considerPair scores af as2 (some (a0, b0, c0)) k t =
              some (k, t, scores k t) := by
            unfold considerPair
            rw [if_neg (by push_neg; exact hc)]
            exact if_pos hlt
          rw [hstep] at hres
          obtain ⟨ihmax, ihsrc, ihle⟩ := ih _ fi si sc hres
          have hkt : scores k t ≤ sc := ihle k t _ rfl
          refine ⟨?_, ?_, ?_⟩
          · intro q hmem hqf hqs
            rcases List.mem_cons.mp hmem with hh | hr
            · rw [hh]
              exact hkt
            · exact ihmax q hr hqf hqs
          · rcases ihsrc with hsrc | hsrc
            · simp only [Option.some.injEq, Prod.mk.injEq] at hsrc
              obtain ⟨rfl, rfl, rfl⟩ := hsrc
              exact Or.inr ⟨List.mem_cons_self _ _, hc.1, hc.2, rfl⟩
            · exact Or.inr ⟨List.mem_cons_of_mem _ hsrc.1, hsrc.2⟩
          · intro a b c hb
            simp only [Option.some.injEq, Prod.mk.injEq] at hb
            rw [← hb.2.2]
            exact le_trans (le_of_lt hlt) hkt
        · have hstep : considerPair scores af as2 (some (a0, b0, c0)) k t =
              some (a0, b0, c0) := by
            unfold considerPair
            rw [if_neg (by push_neg; exact hc)]
            exact if_neg hlt
          rw [hstep] at hres
          obtain ⟨ihmax, ihsrc, ihle⟩ := ih _ fi si sc hres
          have hc0 : c0 ≤ sc := ihle a0 b0 c0 rfl
          refine ⟨?_, ?_, ?_⟩
          · intro q hmem hqf hqs
            rcases List.mem_cons.mp hmem with hh | hr
            · rw [hh]
              exact le_trans (not_lt.mp hlt) hc0
            · exact ihmax q hr hqf hqs
          · rcases ihsrc with hsrc | hsrc
            · exact Or.inl hsrc
            · exact Or.inr ⟨List.mem_cons_of_mem _ hsrc.1, hsrc.2⟩
          · intro a b c hb
            simp only [Option.some.injEq, Prod.mk.injEq] at hb
            rw [← hb.2.2]
            exact hc0

/-- Specification of `findBest`: a returned pair is an in-range unassigned
pair carrying its own score and dominating every in-range unassigned pair. -/
theorem findBest_spec (scores : ℕ → ℕ → ℚ) (n m : ℕ) (af as2 : List ℕ)
    (fi si : ℕ) (sc : ℚ) (h : findBest scores n m af as2 = some (fi, si, sc)) :
    fi < n ∧ si < m ∧ fi ∉ af ∧ si ∉ as2 ∧ sc = scores fi si ∧
      ∀ fi2 si2, fi2 < n → si2 < m → fi2 ∉ af → si2 ∉ as2 →
        scores fi2 si2 ≤ sc := by
  obtain ⟨hmax, hsrc, _⟩ := considerFold_spec scores af as2 _ none fi si sc h
  rcases hsrc with hsrc | hsrc
  · cases hsrc
  · obtain ⟨hmem, hf, hs, hval⟩ := hsrc
    rw [List.mem_product] at hmem
    refine ⟨List.mem_range.mp hmem.1, List.mem_range.mp hmem.2, hf, hs, hval, ?_⟩
    intro fi2 si2 h2n h2m h2f h2s
    exact hmax (fi2, si2)
      (List.mem_product.mpr ⟨List.mem_range.mpr h2n, List.mem_range.mpr h2m⟩) h2f h2s

/-- Invariant of the greedy assignment loop: at most `fuel` pairs, every chosen
pair is in range, fresh and has positive score, chosen file and side indices
are pairwise distinct, and each step picks a maximum of the remaining pool. -/
theorem greedyGo_invariant (scores : ℕ → ℕ → ℚ) (n m : ℕ) :
    ∀ (fuel : ℕ) (af as2 : List ℕ),
      (greedyGo scores n m fuel af as2).length ≤ fuel ∧
      (∀ q ∈ greedyGo scores n m fuel af as2,
        q.1 < n ∧ q.2 < m ∧ q.1 ∉ af ∧ q.2 ∉ as2 ∧ 0 < scores q.1 q.2) ∧
      ((greedyGo scores n m fuel af as2).map Prod.fst).Nodup ∧
      ((greedyGo scores n m fuel af as2).map Prod.snd).Nodup ∧
      (∀ k, k < (greedyGo scores n m fuel af as2).length →
        ∀ fi2 si2, fi2 < n → si2 < m → fi2 ∉ af → si2 ∉ as2 →
          fi2 ∉ ((greedyGo scores n m fuel af as2).take k).map Prod.fst →
          si2 ∉ ((greedyGo scores n m fuel af as2).take k).map Prod.snd →
          scores fi2 si2 ≤
            scores ((greedyGo scores n m fuel af as2).getD k (0, 0)).1
              ((greedyGo scores n m fuel af as2).getD k (0, 0)).2) := by
  intro fuel
  induction fuel with
  | zero =>
    intro af as2
    simp [greedyGo]
  | succ fuel ih =>
    intro af as2
    rcases hfb : findBest scores n m af as2 with _ | ⟨fi, si, sc⟩
    · have hgo : greedyGo scores n m (fuel + 1) af as2 = [] := by
        show (match findBest scores n m af as2 with
          | none => []
          | some (fi, si, sc) =>
            if sc ≤ 0 then []
            else (fi, si) :: greedyGo scores n m fuel (fi :: af) (si :: as2)) = []
        rw [hfb]
      rw [hgo]
      simp
    · by_cases hsc : sc ≤ 0
      · have hgo : greedyGo scores n m (fuel + 1) af as2 = [] := by
          show (match findBest scores n m af as2 with
            | none => []
            | some (fi, si, sc) =>
              if sc ≤ 0 then []
              else (fi, si) :: greedyGo scores n m fuel (fi :: af) (si :: as2)) = []
          rw [hfb]
          show (if sc ≤ 0 then ([] : List (ℕ × ℕ))
            else (fi, si) :: greedyGo scores n m fuel (fi :: af) (si :: as2)) = []
          exact if_pos hsc
        rw [hgo]
        simp
      · have hgo : greedyGo scores n m (fuel + 1) af as2 =
            (fi, si) :: greedyGo scores n m fuel (fi :: af) (si :: as2) := by
          show (match findBest scores n m af as2 with
            | none => []
            | some (fi, si, sc) =>
              if sc ≤ 0 then []
              else (fi, si) :: greedyGo scores n m fuel (fi :: af) (si :: as2)) =
            (fi, si) :: greedyGo scores n m fuel (fi :: af) (si :: as2)
          rw [hfb]
          show (if sc ≤ 0 then ([] : List (ℕ × ℕ))
            else (fi, si) :: greedyGo scores n m fuel (fi :: af) (si :: as2)) =
            (fi, si) :: greedyGo scores n m fuel (fi :: af) (si :: as2)
          exact if_neg hsc
        obtain ⟨hbn, hbm, hbaf, hbas, hbval, hbmax⟩ := findBest_spec scores n m af as2 fi si sc hfb
        obtain ⟨ihlen, ihmem, ihnf, ihns, ihmax⟩ := ih (fi :: af) (si :: as2)
        rw [hgo]
        refine ⟨?_, ?_, ?_, ?_, ?_⟩
        · simp only [List.length_cons]
          omega
        · intro q hq
          rcases List.mem_cons.mp hq with hh | hr
          · rw [hh]
            refine ⟨hbn, hbm, hbaf, hbas, ?_⟩
            rw [← hbval]
            exact lt_of_not_le hsc
          · obtain ⟨h1, h2, h3, h4, h5⟩ := ihmem q hr
            exact ⟨h1, h2, fun hmem => h3 (List.mem_cons_of_mem _ hmem),
              fun hmem => h4 (List.mem_cons_of_mem _ hmem), h5⟩
        · simp only [List.map_cons, List.nodup_cons]
          refine ⟨?_, ihnf⟩
          intro hmem
          rw [List.mem_map] at hmem
          obtain ⟨q, hq, hq1⟩ := hmem
          exact (ihmem q hq).2.2.1 (hq1 ▸ List.mem_cons_self _ _)
        · simp only [List.map_cons, List.nodup_cons]
          refine ⟨?_, ihns⟩
          intro hmem
          rw [List.mem_map] at hmem
          obtain ⟨q, hq, hq1⟩ := hmem
          exact (ihmem q hq).2.2.2.1 (hq1 ▸ List.mem_cons_self _ _)
        · intro k hk fi2 si2 h2n h2m h2f h2s htf hts
          cases k with
          | zero =>
            simp only [List.getD_cons_zero]
            rw [← hbval]
            exact hbmax fi2 si2 h2n h2m h2f h2s
          | succ k =>
            simp only [List.take_succ_cons, List.map_cons, List.mem_cons] at htf hts
            push_neg at htf hts
            simp only [List.getD_cons_succ]
            refine ihmax k (by simpa using hk) fi2 si2 h2n h2m ?_ ?_ htf.2 hts.2
            · intro hmem
              rcases List.mem_cons.mp hmem with hh | hh
              · exact htf.1 hh
              · exact h2f hh
            · intro hmem
              rcases List.mem_cons.mp hmem with hh | hh
              · exact hts.1 hh
              · exact h2s hh

/-- C4: side assignment is greedy — it iterates at most `min(N, M)` times,
every chosen (file, side) pair is in range with a strictly positive score
(the loop stops as soon as the best remaining score is ≤ 0), both the chosen
file and the chosen side leave the pool (chosen file indices and side indices
are pairwise distinct — so two distinct assigned files always receive
different sides), and the `k`-th chosen pair maximizes the score over the pool
remaining after the first `k` choices. -/
theorem assignFilesToSides_greedy (files : List FileInfo) (sides : List DiscogsSide) :
    (assignFilesToSides files sides).length ≤ min files.length sides.length ∧
    (∀ q ∈ assignFilesToSides files sides,
      q.1 < files.length ∧ q.2 < sides.length ∧ 0 < scoreMatrix files sides q.1 q.2) ∧
    ((assignFilesToSides files sides).map Prod.fst).Nodup ∧
    ((assignFilesToSides files sides).map Prod.snd).Nodup ∧
    (∀ k, k < (assignFilesToSides files sides).length →
      ∀ fi2 si2, fi2 < files.length → si2 < sides.length →
        fi2 ∉ ((assignFilesToSides files sides).take k).map Prod.fst →
        si2 ∉ ((assignFilesToSides files sides).take k).map Prod.snd →
        scoreMatrix files sides fi2 si2 ≤
          scoreMatrix files sides ((assignFilesToSides files sides).getD k (0, 0)).1
            ((assignFilesToSides files sides).getD k (0, 0)).2) := by
  unfold assignFilesToSides
  split
  · simp
  · obtain ⟨hlen, hmem, hnf, hns, hmax⟩ :=
      greedyGo_invariant (scoreMatrix files sides) files.length sides.length
        (min files.length sides.length) [] []
    refine ⟨hlen, ?_, hnf, hns, ?_⟩
    · intro q hq
      obtain ⟨h1, h2, _, _, h5⟩ := hmem q hq
      exact ⟨h1, h2, h5⟩
    · intro k hk fi2 si2 h2n h2m htf hts
      exact hmax k hk fi2 si2 h2n h2m (List.not_mem_nil _) (List.not_mem_nil _) htf hts

/-- Witness for C4 on a concrete 1×1 instance. -/
theorem assignFilesToSides_greedy_witness :
    (assignFilesToSides [⟨[], [], 100⟩] [⟨Char.ofNat 65, [], 100⟩]).length ≤
      min ([(⟨[], [], 100⟩ : FileInfo)]).length ([(⟨Char.ofNat 65, [], 100⟩ : DiscogsSide)]).length ∧
    ((assignFilesToSides [⟨[], [], 100⟩] [⟨Char.ofNat 65, [], 100⟩]).map Prod.fst).Nodup :=
  ⟨(assignFilesToSides_greedy [⟨[], [], 100⟩] [⟨Char.ofNat 65, [], 100⟩]).1,
    (assignFilesToSides_greedy [⟨[], [], 100⟩] [⟨Char.ofNat 65, [], 100⟩]).2.2.1⟩

/-! ## audio_stream.rs — `parse_audio_address` -/

/-- `address.find(':')` followed by the split into backend and device
(src/audio_stream.rs:30-32): `none` when the address has no colon. -/
def splitFirstColon : List Char → Option (List Char × List Char)
  | [] => none
  | c :: rest =>
    if c = ':' then some ([], rest)
    else (splitFirstColon rest).map (fun p => (c :: p.1, p.2))

/-- `parse_audio_address` (src/audio_stream.rs:23-55).  Returns the
`(backend, device)` pair; the `Result` error type is kept even though no
branch produces it. -/
def parseAudioAddress (a : List Char) : Except (List Char) (List Char × List Char) :=
  if "hw:".toList.isPrefixOf a ∨ "plughw:".toList.isPrefixOf a ∨ a = "default".toList then
    Except.ok ("alsa".toList, a)
  else
    match splitFirstColon a with
    | some (backend, device) =>
      if toLowerList backend = "pipewire".toList ∨ toLowerList backend = "pw".toList then
        Except.ok ("pipewire".toList, device)
      else if toLowerList backend = "pwpipe".toList then
        Except.ok ("pwpipe".toList, device)
      else if toLowerList backend = "alsa".toList then
        Except.ok ("alsa".toList, device)
      else if toLowerList backend = "file".toList then
        Except.ok ("file".toList, device)
      else
        Except.ok ("pipewire".toList, a)
    | none =>
      if '/' ∈ a ∨ ".wav".toList.isSuffixOf a ∨ ".mp3".toList.isSuffixOf a ∨
          ".flac".toList.isSuffixOf a ∨ ".WAV".toList.isSuffixOf a ∨
          ".MP3".toList.isSuffixOf a ∨ ".FLAC".toList.isSuffixOf a then
        Except.ok ("file".toList, a)
      else
        Except.ok ("pipewire".toList, a)

/-- A colon-free address has no colon split. -/
theorem splitFirstColon_eq_none (a : List Char) (h : ':' ∉ a) :
    splitFirstColon a = none := by
  induction a with
  | nil => rfl
  | cons c rest ih =>
    have hc : ¬(c = ':') := by
      intro hc
      apply h
      rw [← hc]
      exact List.mem_cons_self c rest
    rw [splitFirstColon, if_neg hc, ih (fun hm => h (List.mem_cons_of_mem c hm))]
    rfl

/-- A colon-free address is not `hw:`- or `plughw:`-prefixed. -/
theorem no_colon_no_alsa_style (a : List Char) (h : ':' ∉ a) :
    ¬("hw:".toList.isPrefixOf a ∨ "plughw:".toList.isPrefixOf a ∨ a = "default".toList) ∨
      a = "default".toList := by
  by_cases hd : a = "default".toList
  · exact Or.inr hd
  · refine Or.inl ?_
    intro hcase
    rcases hcase with hh | hh | hh
    · have hp := List.isPrefixOf_iff_prefix.mp hh
      exact h (hp.subset (by decide))
    · have hp := List.isPrefixOf_iff_prefix.mp hh
      exact h (hp.subset (by decide))
    · exact hd hh

/-- C7 (amended): the parser never errors; `pipewire:`/`pw:`, `pwpipe:`,
`alsa:` and `file:` prefixes select the corresponding backend with the
remainder as device; bare `hw:`/`plughw:` addresses and the literal `default`
resolve to ALSA; a colon-free address resolves to `file` exactly when it
contains a `/` or ends in one of the six literal suffixes
`.wav/.mp3/.flac/.WAV/.MP3/.FLAC` (not case-insensitively), and to `pipewire`
otherwise. -/
theorem parseAudioAddress_spec :
    (∀ a : List Char, ∃ r, parseAudioAddress a = Except.ok r) ∧
    (∀ d, parseAudioAddress ("pipewire:".toList ++ d) = Except.ok ("pipewire".toList, d)) ∧
    (∀ d, parseAudioAddress ("pw:".toList ++ d) = Except.ok ("pipewire".toList, d)) ∧
    (∀ d, parseAudioAddress ("pwpipe:".toList ++ d) = Except.ok ("pwpipe".toList, d)) ∧
    (∀ d, parseAudioAddress ("alsa:".toList ++ d) = Except.ok ("alsa".toList, d)) ∧
    (∀ d, parseAudioAddress ("file:".toList ++ d) = Except.ok ("file".toList, d)) ∧
    (∀ d, parseAudioAddress ("hw:".toList ++ d) =
      Except.ok ("alsa".toList, "hw:".toList ++ d)) ∧
    (∀ d, parseAudioAddress ("plughw:".toList ++ d) =
      Except.ok ("alsa".toList, "plughw:".toList ++ d)) ∧
    (parseAudioAddress "default".toList = Except.ok ("alsa".toList, "default".toList)) ∧
    (∀ a : List Char, ':' ∉ a →
      ('/' ∈ a ∨ ".wav".toList.isSuffixOf a ∨ ".mp3".toList.isSuffixOf a ∨
        ".flac".toList.isSuffixOf a ∨ ".WAV".toList.isSuffixOf a ∨
        ".MP3".toList.isSuffixOf a ∨ ".FLAC".toList.isSuffixOf a) →
      parseAudioAddress a = Except.ok ("file".toList, a)) ∧
    (∀ a : List Char, ':' ∉ a → a ≠ "default".toList →
      ¬('/' ∈ a ∨ ".wav".toList.isSuffixOf a ∨ ".mp3".toList.isSuffixOf a ∨
        ".flac".toList.isSuffixOf a ∨ ".WAV".toList.isSuffixOf a ∨
        ".MP3".toList.isSuffixOf a ∨ ".FLAC".toList.isSuffixOf a) →
      parseAudioAddress a = Except.ok ("pipewire".toList, a)) := by
  refine ⟨?_, fun d => rfl, fun d => rfl, fun d => rfl, fun d => rfl, fun d => rfl,
    ?_, ?_, rfl, ?_, ?_⟩
  · intro a
    unfold parseAudioAddress
    repeat' split
    all_goals exact ⟨_, rfl⟩
  · intro d
    unfold parseAudioAddress
    rw [if_pos (Or.inl (List.isPrefixOf_iff_prefix.mpr (List.prefix_append _ d)))]
  · intro d
    unfold parseAudioAddress
    rw [if_pos (Or.inr (Or.inl
      (List.isPrefixOf_iff_prefix.mpr (List.prefix_append _ d))))]
  · intro a hcolon hfile
    rcases no_colon_no_alsa_style a hcolon with hno | hd
    · unfold parseAudioAddress
      rw [if_neg hno, splitFirstColon_eq_none a hcolon]
      exact if_pos hfile
    · exfalso
      rw [hd] at hfile
      rcases hfile with h | h | h | h | h | h | h <;> revert h <;> decide
  · intro a hcolon hdef hnofile
    rcases no_colon_no_alsa_style a hcolon with hno | hd
    · unfold parseAudioAddress
      rw [if_neg hno, splitFirstColon_eq_none a hcolon]
      exact if_neg hnofile
    · exact absurd hd hdef

/-- C7 counterexample: the extension comparison is not case-insensitive —
`song.Wav` resolves to the PipeWire backend, not to `file`; an unrecognized
scheme with a colon also resolves to PipeWire even when the path ends in
`.wav`; and a colon-free path containing `/` but no recognized extension
resolves to `file`, not PipeWire. -/
theorem parseAudioAddress_cex :
    parseAudioAddress "song.Wav".toList =
      Except.ok ("pipewire".toList, "song.Wav".toList) ∧
    "pipewire".toList ≠ "file".toList ∧
    parseAudioAddress "foo:x.wav".toList =
      Except.ok ("pipewire".toList, "foo:x.wav".toList) ∧
    parseAudioAddress "a/b".toList = Except.ok ("file".toList, "a/b".toList) := by
  exact ⟨rfl, by decide, rfl, rfl⟩

/-- Witness for C7's conditional clauses at concrete colon-free addresses. -/
theorem parseAudioAddress_spec_witness :
    parseAudioAddress "x.wav".toList = Except.ok ("file".toList, "x.wav".toList) ∧
    parseAudioAddress "mic2".toList = Except.ok ("pipewire".toList, "mic2".toList) :=
  ⟨parseAudioAddress_spec.2.2.2.2.2.2.2.2.2.1 "x.wav".toList (by decide)
      (Or.inr (Or.inl (by decide))),
    parseAudioAddress_spec.2.2.2.2.2.2.2.2.2.2 "mic2".toList (by decide) (by decide)
      (by decide)⟩

/-! ## recorder.rs — the auto-recorder's min-length close behaviour

The writer thread's state (src/recorder.rs:114-198): `recording` flag, the
next ordinal, the open `WavWriter`'s running `data_size` (present iff a file
is open) and the list of kept (finalized, min-length-passing) files as
(ordinal, header data size).  The elapsed recording duration is wall-clock
time, so it arrives as an input attached to the `Stop` command.  A too-short
close deletes the just-written file, which therefore never joins `keptFiles`;
a passing close finalizes it with its data size in the header (the
`WavWriter::finalize` header rewrite) and advances the ordinal. -/

/-- `SampleFormat` (src/vu_meter.rs). -/
inductive SampleFormat
  | S16
  | S32
  deriving DecidableEq, Repr

/-- `SampleFormat::bytes_per_sample`. -/
def SampleFormat.bytesPerSample : SampleFormat → ℕ
  | .S16 => 2
  | .S32 => 4

/-- Modelled state of `recording_worker` (src/recorder.rs:114-198). -/
structure RecorderState where
  recording : Bool
  nextFileNumber : ℕ
  writerSize : Option ℕ
  keptFiles : List (ℕ × ℕ)
  deriving DecidableEq, Repr

/-- `RecorderCommand` (src/recorder.rs:12-16), with the elapsed wall-clock
duration attached to `stop`. -/
inductive RecorderCommand
  | start
  | write (nsamples : ℕ)
  | stop (elapsed : ℚ)
  deriving DecidableEq, Repr

/-- One command of `recording_worker`'s loop (src/recorder.rs:128-197):
`Start` opens a file at the current ordinal when idle; `Write` grows the open
writer's `data_size` (`write_samples`, src/recorder.rs:309-327); `Stop`
finalizes, then deletes the file keeping the ordinal when
`elapsed < min_length`, otherwise keeps the finalized file and advances the
ordinal. -/
def recorderStep (fmt : SampleFormat) (minLength : ℚ) (s : RecorderState) :
    RecorderCommand → RecorderState
  | .start =>
    if s.recording then s
    else { s with recording := true, writerSize := some 0 }
  | .write n =>
    match s.writerSize with
    | none => s
    | some sz => { s with writerSize := some (sz + n * fmt.bytesPerSample) }
  | .stop elapsed =>
    match s.writerSize with
    | none => s
    | some sz =>
      if elapsed < minLength then
        { s with recording := false, writerSize := none }
      else
        { s with
            recording := false
            writerSize := none
            keptFiles := s.keptFiles ++ [(s.nextFileNumber, sz)]
            nextFileNumber := s.nextFileNumber + 1 }

/-- The worker's command loop over a whole trace. -/
def recorderRun (fmt : SampleFormat) (minLength : ℚ) :
    RecorderState → List RecorderCommand → RecorderState :=
  List.foldl (recorderStep fmt minLength)

/-- Every step preserves `nextFileNumber − keptFiles.length`: the ordinal
advances exactly when a file is kept. -/
theorem recorderStep_ordinal (fmt : SampleFormat) (minL : ℚ) (s : RecorderState)
    (c : RecorderCommand) :
    (recorderStep fmt minL s c).nextFileNumber + s.keptFiles.length =
      s.nextFileNumber + (recorderStep fmt minL s c).keptFiles.length := by
  cases c with
  | start =>
    simp only [recorderStep]
    split <;> rfl
  | write n =>
    simp only [recorderStep]
    rcases s.writerSize with _ | sz <;> rfl
  | stop d =>
    simp only [recorderStep]
    split
    · rfl
    · split
      · rfl
      · simp only [List.length_append, List.length_cons, List.length_nil]
        omega

/-- C8: closing a recording with elapsed below `min_length` deletes the file
(it never joins the kept set) and leaves the ordinal untouched, restoring the
recorder to its idle pre-recording state; otherwise the finalized file — whose
header carries the accumulated data size — is kept and the ordinal advances by
one.  Along any command trace the ordinal advances exactly by the number of
kept (min-length-passing) closes. -/
theorem recorder_min_length_spec (fmt : SampleFormat) (minL : ℚ) (s : RecorderState)
    (sz : ℕ) (dur : ℚ) (h : s.writerSize = some sz) :
    (dur < minL →
      recorderStep fmt minL s (.stop dur) =
        { s with recording := false, writerSize := none }) ∧
    (¬ dur < minL →
      recorderStep fmt minL s (.stop dur) =
        { s with
            recording := false
            writerSize := none
            keptFiles := s.keptFiles ++ [(s.nextFileNumber, sz)]
            nextFileNumber := s.nextFileNumber + 1 }) ∧
    (∀ (cmds : List RecorderCommand) (s0 : RecorderState),
      (recorderRun fmt minL s0 cmds).nextFileNumber + s0.keptFiles.length =
        s0.nextFileNumber + (recorderRun fmt minL s0 cmds).keptFiles.length) := by
  refine ⟨?_, ?_, ?_⟩
  · intro hlt
    simp only [recorderStep, h]
    exact if_pos hlt
  · intro hge
    simp only [recorderStep, h]
    exact if_neg hge
  · intro cmds
    induction cmds with
    | nil => intro s0; rfl
    | cons c rest ih =>
      intro s0
      have hstep := recorderStep_ordinal fmt minL s0 c
      have hrest := ih (recorderStep fmt minL s0 c)
      simp only [recorderRun, List.foldl_cons] at hrest ⊢
      omega

/-- Witness for C8: a concrete open recorder closed too early keeps ordinal 3
and its kept files; closed late enough it keeps the file and advances to 4. -/
theorem recorder_min_length_spec_witness :
    ((⟨true, 3, some 400, []⟩ : RecorderState).writerSize = some 400) ∧
    ((5 : ℚ) < 10 →
      recorderStep SampleFormat.S16 10 ⟨true, 3, some 400, []⟩ (.stop 5) =
        ⟨false, 3, none, []⟩) ∧
    (¬ (15 : ℚ) < 10 →
      recorderStep SampleFormat.S16 10 ⟨true, 3, some 400, []⟩ (.stop 15) =
        ⟨false, 4, none, [(3, 400)]⟩) :=
  ⟨rfl,
    fun hlt => (recorder_min_length_spec SampleFormat.S16 10 ⟨true, 3, some 400, []⟩
      400 5 rfl).1 hlt,
    fun hge => (recorder_min_length_spec SampleFormat.S16 10 ⟨true, 3, some 400, []⟩
      400 15 rfl).2.1 hge⟩

/-! ## songrec_cache.rs — FNV-1a keys and the line-oriented cache

The cache file is a character stream; bytes hashed by FNV-1a are `ℕ` values
reduced mod 256.  `'\n'`/`'\r'` are written `Char.ofNat 10`/`Char.ofNat 13`. -/

/-- The newline character. -/
def nlChar : Char := Char.ofNat 10

/-- The carriage-return character. -/
def crChar : Char := Char.ofNat 13

/-- 64-bit FNV-1a over the segment bytes (`hash_bytes`,
src/songrec_cache.rs:24-31), with explicit wrapping at `2^64`. -/
def fnv1a64 (data : List ℕ) : ℕ :=
  data.foldl (fun h b => (Nat.xor h (b % 256) * 0x100000001b3) % 2 ^ 64)
    0xcbf29ce484222325

/-- One lowercase hexadecimal digit. -/
def hexDigit (n : ℕ) : Char :=
  if n < 10 then Char.ofNat (48 + n) else Char.ofNat (87 + n)

/-- `format!("{:016x}", h)` for `h < 2^64`: 16 zero-padded lowercase hex
digits, most significant first. -/
def hex16 (h : ℕ) : List Char :=
  (List.range 16).map (fun i => hexDigit (h / 16 ^ (15 - i) % 16))

/-- `hash_bytes` (src/songrec_cache.rs:24-31): the 16-hex-digit cache key. -/
def hashBytes (data : List ℕ) : List Char :=
  hex16 (fnv1a64 data)

/-- Newline collapsing of `append_to_cache` (src/songrec_cache.rs:69):
`json.replace('\n', " ").replace('\r', "")`. -/
def singleLine (json : List Char) : List Char :=
  (json.map (fun c => if c = nlChar then ' ' else c)).filter (fun c => decide (c ≠ crChar))

/-- `append_to_cache` (src/songrec_cache.rs:58-72): `writeln!(f, "{} {}", key,
one_line)` appends `key ++ " " ++ one_line ++ "\n"` to the cache file. -/
def appendToCache (f : List Char) (key json : List Char) : List Char :=
  f ++ key ++ ' ' :: singleLine json ++ [nlChar]

/-- Split a character stream at newlines; `n` newlines yield `n + 1`
segments. -/
def splitNl : List Char → List (List Char)
  | [] => [[]]
  | c :: rest =>
    if c = nlChar then [] :: splitNl rest
    else
      match splitNl rest with
      | [] => [[c]]
      | seg :: segs => (c :: seg) :: segs

/-- Strip one trailing carriage return, as `str::lines` does per line. -/
def stripCr (l : List Char) : List Char :=
  if l.getLast? = some crChar then l.dropLast else l

/-- Rust `str::lines` over the file stream: split at `'\n'`, dropping the
empty segment after a trailing newline and stripping one trailing `'\r'` per
line. -/
def linesOf (f : List Char) : List (List Char) :=
  if f = [] then []
  else if f.getLast? = some nlChar then ((splitNl f).dropLast).map stripCr
  else (splitNl f).map stripCr

/-- `line.find(' ')` and the split into key and value
(src/songrec_cache.rs:47-50). -/
def splitFirstSpace : List Char → Option (List Char × List Char)
  | [] => none
  | c :: rest =>
    if c = ' ' then some ([], rest)
    else (splitFirstSpace rest).map (fun p => (c :: p.1, p.2))

/-- One line of `load_cache`'s loop: lines without a space are skipped,
key/value lines are inserted (`HashMap::insert` modelled as appending to the
insertion sequence, later entries shadowing earlier ones). -/
def cacheInsertLine (m : List (List Char × List Char)) (line : List Char) :
    List (List Char × List Char) :=
  match splitFirstSpace line with
  | none => m
  | some kv => m ++ [kv]

/-- `load_cache` (src/songrec_cache.rs:34-55). -/
def loadCache (f : List Char) : List (List Char × List Char) :=
  (linesOf f).foldl cacheInsertLine []

/-- `HashMap` lookup on the insertion sequence: the latest insertion for the
key wins. -/
def cacheFind (m : List (List Char × List Char)) (k : List Char) : Option (List Char) :=
  (m.reverse.find? (fun p => p.1 == k)).map Prod.snd

/-- Every character of a cache key is a lowercase hex digit; in particular the
key is 16 characters long and contains no space, newline or carriage
return. -/
theorem hashBytes_hex (data : List ℕ) :
    (hashBytes data).length = 16 ∧
    ∀ c ∈ hashBytes data, c ∈ "0123456789abcdef".toList := by
  constructor
  · simp [hashBytes, hex16]
  · intro c hc
    simp only [hashBytes, hex16, List.mem_map] at hc
    obtain ⟨i, _, hi⟩ := hc
    have hlt : fnv1a64 data / 16 ^ (15 - i) % 16 < 16 := Nat.mod_lt _ (by norm_num)
    have hall : ∀ m, m < 16 → hexDigit m ∈ "0123456789abcdef".toList := by decide
    rw [← hi]
    exact hall _ hlt

/-- `splitNl` never returns the empty list of segments. -/
theorem splitNl_ne_nil : ∀ xs : List Char, splitNl xs ≠ [] := by
  intro xs
  induction xs with
  | nil => simp [splitNl]
  | cons c rest ih =>
    rw [splitNl]
    split
    · simp
    · rcases hs : splitNl rest with _ | ⟨s, ss⟩
      · simp
      · simp

/-- Splitting a newline-free word followed by a newline peels off the word. -/
theorem splitNl_word : ∀ (L rest : List Char), nlChar ∉ L →
    splitNl (L ++ nlChar :: rest) = L :: splitNl rest := by
  intro L
  induction L with
  | nil =>
    intro rest _
    simp only [List.nil_append]
    rw [splitNl, if_pos rfl]
  | cons c L2 ih =>
    intro rest h
    have hc : ¬(c = nlChar) := by
      intro hc
      apply h
      rw [← hc]
      exact List.mem_cons_self c L2
    simp only [List.cons_append]
    rw [splitNl, if_neg hc, ih rest (fun hm => h (List.mem_cons_of_mem _ hm))]

/-- A stream ending in a newline splits into at least two segments. -/
theorem splitNl_last_two : ∀ xs : List Char, xs.getLast? = some nlChar →
    ∃ s ss, splitNl xs = s :: ss ∧ ss ≠ [] := by
  intro xs
  induction xs with
  | nil => intro h; simp at h
  | cons c rest ih =>
    intro h
    rcases rest with _ | ⟨d, rest2⟩
    · simp only [List.getLast?_singleton, Option.some.injEq] at h
      refine ⟨[], [[]], ?_, by simp⟩
      rw [h, splitNl, if_pos rfl]
      rfl
    · have h2 : (d :: rest2).getLast? = some nlChar := by
        rwa [List.getLast?_cons_cons] at h
      obtain ⟨s, ss, hsplit, hss⟩ := ih h2
      by_cases hc : c = nlChar
      · refine ⟨[], splitNl (d :: rest2), ?_, ?_⟩
        · rw [splitNl, if_pos hc]
        · rw [hsplit]
          simp
      · refine ⟨c :: s, ss, ?_, hss⟩
        rw [splitNl, if_neg hc, hsplit]

/-- Appending a newline-free line plus newline to a well-terminated stream
appends one full segment and a fresh empty segment. -/
theorem splitNl_append_line :
    ∀ (f : List Char), (f = [] ∨ f.getLast? = some nlChar) →
      ∀ (L : List Char), nlChar ∉ L →
        splitNl (f ++ L ++ [nlChar]) = (splitNl f).dropLast ++ [L, []] := by
  intro f
  induction f with
  | nil =>
    intro _ L hL
    simp only [List.nil_append]
    rw [splitNl_word L [] hL]
    rfl
  | cons c f2 ih =>
    intro hf L hL
    rcases hf with hf | hf
    · cases hf
    · rcases f2 with _ | ⟨d, f3⟩
      · simp only [List.getLast?_singleton, Option.some.injEq] at hf
        rw [hf]
        simp only [List.cons_append, List.nil_append]
        rw [splitNl, if_pos rfl, splitNl_word L [] hL]
        rfl
      · have h2 : (d :: f3).getLast? = some nlChar := by
          rwa [List.getLast?_cons_cons] at hf
        have ihr := ih (Or.inr h2) L hL
        obtain ⟨s, ss, hsplit, hss⟩ := splitNl_last_two (d :: f3) h2
        rcases ss with _ | ⟨b, t⟩
        · exact absurd rfl hss
        · rw [hsplit] at ihr
          simp only [List.cons_append] at ihr
          by_cases hc : c = nlChar
          · have e1 : splitNl ((c :: d :: f3) ++ L ++ [nlChar]) =
                [] :: (s :: ((b :: t).dropLast ++ [L, []])) := by
              simp only [List.cons_append]
              rw [splitNl, if_pos hc, ihr]
              rfl
            have e2 : splitNl (c :: d :: f3) = [] :: s :: b :: t := by
              rw [splitNl, if_pos hc, hsplit]
            rw [e1, e2]
            rfl
          · have e1 : splitNl ((c :: d :: f3) ++ L ++ [nlChar]) =
                (c :: s) :: ((b :: t).dropLast ++ [L, []]) := by
              simp only [List.cons_append]
              rw [splitNl, if_neg hc, ihr]
              rfl
            have e2 : splitNl (c :: d :: f3) = (c :: s) :: b :: t := by
              rw [splitNl, if_neg hc, hsplit]
            rw [e1, e2]
            rfl

/-- Lines without a carriage return are untouched by the `\r` stripping. -/
theorem stripCr_of_not_mem (l : List Char) (h : crChar ∉ l) : stripCr l = l := by
  unfold stripCr
  split
  · rename_i hlast
    exfalso
    apply h
    obtain ⟨hne, heq⟩ := List.mem_getLast?_eq_getLast (Option.mem_def.mpr hlast)
    rw [heq]
    exact List.getLast_mem hne
  · rfl

/-- `str::lines` of a well-terminated stream plus one appended line. -/
theorem linesOf_append_line (f L : List Char) (hf : f = [] ∨ f.getLast? = some nlChar)
    (hL : nlChar ∉ L) :
    linesOf (f ++ L ++ [nlChar]) = linesOf f ++ [stripCr L] := by
  have hsplit := splitNl_append_line f hf L hL
  unfold linesOf
  rw [if_neg (by simp)]
  rw [if_pos (List.getLast?_concat (f ++ L))]
  rw [hsplit]
  have hre : (splitNl f).dropLast ++ [L, []] = ((splitNl f).dropLast ++ [L]) ++ [[]] := by
    simp
  rw [hre, List.dropLast_concat, List.map_append]
  congr 1
  rcases hf with hf | hf
  · rw [hf]
    simp [splitNl]
  · have hne : f ≠ [] := by
      intro h0
      rw [h0] at hf
      simp at hf
    rw [if_neg hne, if_pos hf]

/-- Splitting a space-free key, a space and a value recovers key and value. -/
theorem splitFirstSpace_key : ∀ (key v : List Char), ' ' ∉ key →
    splitFirstSpace (key ++ ' ' :: v) = some (key, v) := by
  intro key
  induction key with
  | nil =>
    intro v _
    simp only [List.nil_append]
    rw [splitFirstSpace, if_pos rfl]
  | cons c k2 ih =>
    intro v h
    have hc : ¬(c = ' ') := by
      intro hc
      apply h
      rw [← hc]
      exact List.mem_cons_self c k2
    simp only [List.cons_append]
    rw [splitFirstSpace, if_neg hc, ih v (fun hm => h (List.mem_cons_of_mem _ hm))]
    rfl

/-- The single-lined JSON contains neither newline nor carriage return. -/
theorem singleLine_clean (json : List Char) :
    nlChar ∉ singleLine json ∧ crChar ∉ singleLine json := by
  constructor
  · intro hmem
    unfold singleLine at hmem
    rw [List.mem_filter] at hmem
    obtain ⟨hm, _⟩ := hmem
    rw [List.mem_map] at hm
    obtain ⟨c, _, hc⟩ := hm
    by_cases h : c = nlChar
    · rw [if_pos h] at hc
      revert hc
      decide
    · rw [if_neg h] at hc
      exact h hc
  · intro hmem
    unfold singleLine at hmem
    rw [List.mem_filter] at hmem
    have := hmem.2
    simp at this

/-- Cache keys contain no space, newline or carriage return. -/
theorem hashBytes_clean (data : List ℕ) :
    ' ' ∉ hashBytes data ∧ nlChar ∉ hashBytes data ∧ crChar ∉ hashBytes data := by
  refine ⟨fun h => ?_, fun h => ?_, fun h => ?_⟩ <;>
  · have hmem := (hashBytes_hex data).2 _ h
    revert hmem
    decide

/-- Looking up the key of the last inserted entry returns that entry. -/
theorem cacheFind_append (m : List (List Char × List Char)) (k v : List Char) :
    cacheFind (m ++ [(k, v)]) k = some v := by
  unfold cacheFind
  rw [List.reverse_append, List.reverse_singleton, List.singleton_append]
  rw [List.find?_cons_of_pos _ (by simp)]
  rfl

/-- C9: appending a cache entry keyed by the 16-lowercase-hex-digit FNV-1a
hash of the segment bytes and reloading the cache returns exactly the
single-lined JSON at that key, for any well-terminated prior cache file; and
the key really is 16 lowercase hex digits. -/
theorem songrecCache_roundtrip (f : List Char) (data : List ℕ) (json : List Char)
    (hf : f = [] ∨ f.getLast? = some nlChar) :
    (hashBytes data).length = 16 ∧
    (∀ c ∈ hashBytes data, c ∈ "0123456789abcdef".toList) ∧
    cacheFind (loadCache (appendToCache f (hashBytes data) json)) (hashBytes data) =
      some (singleLine json) := by
  obtain ⟨hsp, hnl, hcr⟩ := hashBytes_clean data
  obtain ⟨hjn, hjc⟩ := singleLine_clean json
  refine ⟨(hashBytes_hex data).1, (hashBytes_hex data).2, ?_⟩
  have hLnl : nlChar ∉ hashBytes data ++ ' ' :: singleLine json := by
    intro hmem
    rcases List.mem_append.mp hmem with h | h
    · exact hnl h
    · rcases List.mem_cons.mp h with h | h
      · revert h
        decide
      · exact hjn h
  have hLcr : crChar ∉ hashBytes data ++ ' ' :: singleLine json := by
    intro hmem
    rcases List.mem_append.mp hmem with h | h
    · exact hcr h
    · rcases List.mem_cons.mp h with h | h
      · revert h
        decide
      · exact hjc h
  have hassoc : appendToCache f (hashBytes data) json =
      f ++ (hashBytes data ++ ' ' :: singleLine json) ++ [nlChar] := by
    simp [appendToCache]
  have hline : cacheInsertLine ((linesOf f).foldl cacheInsertLine [])
      (hashBytes data ++ ' ' :: singleLine json) =
      (linesOf f).foldl cacheInsertLine [] ++ [(hashBytes data, singleLine json)] := by
    unfold cacheInsertLine
    rw [splitFirstSpace_key _ _ hsp]
  rw [hassoc]
  unfold loadCache
  rw [linesOf_append_line f _ hf hLnl, List.foldl_append, stripCr_of_not_mem _ hLcr]
  simp only [List.foldl_cons, List.foldl_nil]
  rw [hline]
  exact cacheFind_append _ _ _

/-- Witness for C9 on an empty prior cache file and a concrete segment. -/
theorem songrecCache_roundtrip_witness :
    (([] : List Char) = [] ∨ ([] : List Char).getLast? = some nlChar) ∧
    ((hashBytes [1, 2]).length = 16 ∧
      (∀ c ∈ hashBytes [1, 2], c ∈ "0123456789abcdef".toList) ∧
      cacheFind (loadCache (appendToCache [] (hashBytes [1, 2]) "ab".toList))
          (hashBytes [1, 2]) = some (singleLine "ab".toList)) :=
  ⟨Or.inl rfl, songrecCache_roundtrip [] [1, 2] "ab".toList (Or.inl rfl)⟩

end Autorec
